import Mathlib

/-!
Verification of the JPM trade/stock library.

Shallow embedding of src/stock.py and src/trade.py:
prices, quantities and aggregates are real numbers, timestamps are
integers (any totally ordered, subtractable time type works the same
way), and the exception paths of the Python code are explicit
constructors of a result type.
-/

/-! ## Embedding of src/stock.py -/

/-- Stock type tags (class StockType). -/
inductive StockType
  | common
  | preferred
deriving DecidableEq

/-- CommonStock attributes (fixed_dividend is None for this variant). -/
structure CommonStock where
  symbol : String
  last_dividend : ℝ
  par_value : ℝ

/-- PreferredStock attributes. -/
structure PreferredStock where
  symbol : String
  last_dividend : ℝ
  fixed_dividend : ℝ
  par_value : ℝ

/-- CommonStock.dividend_yield: 0 at price 0, otherwise last_dividend / price. -/
noncomputable def CommonStock.dividend_yield (s : CommonStock) (price : ℝ) : ℝ :=
  if price = 0 then 0 else s.last_dividend / price

/-- PreferredStock.dividend_yield: 0 at price 0, otherwise
(fixed_dividend * par_value) / (price * 100), the source dividing by 100
because fixed_dividend is in percent. -/
noncomputable def PreferredStock.dividend_yield (s : PreferredStock) (price : ℝ) : ℝ :=
  if price = 0 then 0 else s.fixed_dividend * s.par_value / (price * 100)

/-- StockABC.pe_ratio, parameterised by the dynamically dispatched
dividend_yield method of the concrete variant: 0 when the yield is 0,
otherwise price / yield. -/
noncomputable def StockABC.pe_ratio (dy : ℝ → ℝ) (price : ℝ) : ℝ :=
  if dy price = 0 then 0 else price / dy price

/-- pe_ratio as inherited by CommonStock. -/
noncomputable def CommonStock.pe_ratio (s : CommonStock) (price : ℝ) : ℝ :=
  StockABC.pe_ratio (s.dividend_yield) price

/-- pe_ratio as inherited by PreferredStock. -/
noncomputable def PreferredStock.pe_ratio (s : PreferredStock) (price : ℝ) : ℝ :=
  StockABC.pe_ratio (s.dividend_yield) price

/-- A stock is one of the two concrete variants. -/
inductive Stock
  | common (c : CommonStock)
  | preferred (p : PreferredStock)

/-- The symbol attribute shared by both variants. -/
def Stock.symbol : Stock → String
  | .common c => c.symbol
  | .preferred p => p.symbol

/-- Claim C7: for every instrument and every price, dividend_yield returns
exactly 0 when price = 0; for nonzero price the common variant returns
last_dividend / price and the preferred variant returns
(fixed_dividend / 100 * par_value) / price, with no rounding applied. -/
theorem dividend_yield_spec (c : CommonStock) (p : PreferredStock) (price : ℝ) :
    CommonStock.dividend_yield c 0 = 0 ∧
    PreferredStock.dividend_yield p 0 = 0 ∧
    (price ≠ 0 →
      CommonStock.dividend_yield c price = c.last_dividend / price ∧
      PreferredStock.dividend_yield p price =
        (p.fixed_dividend / 100 * p.par_value) / price) := by
  refine ⟨?_, ?_, fun hp => ⟨?_, ?_⟩⟩
  · simp [CommonStock.dividend_yield]
  · simp [PreferredStock.dividend_yield]
  · simp [CommonStock.dividend_yield, hp]
  · rw [PreferredStock.dividend_yield, if_neg hp,
      div_eq_div_iff (by simp [hp]) hp]
    ring

/-- Witness for C7: the preferred-equity example with fixed_dividend 2 and
par_value 100 yields dividend_yield 1 = 2 and dividend_yield 2 = 1. -/
theorem dividend_yield_spec_witness :
    PreferredStock.dividend_yield ⟨"GIN", 8, 2, 100⟩ 1 = 2 ∧
    PreferredStock.dividend_yield ⟨"GIN", 8, 2, 100⟩ 2 = 1 ∧
    CommonStock.dividend_yield ⟨"TEA", 0, 100⟩ 0 = 0 := by
  have h1 := (dividend_yield_spec ⟨"TEA", 0, 100⟩ ⟨"GIN", 8, 2, 100⟩ 1).2.2 (by norm_num)
  have h2 := (dividend_yield_spec ⟨"TEA", 0, 100⟩ ⟨"GIN", 8, 2, 100⟩ 2).2.2 (by norm_num)
  have h0 := (dividend_yield_spec ⟨"TEA", 0, 100⟩ ⟨"GIN", 8, 2, 100⟩ 1).1
  refine ⟨?_, ?_, h0⟩
  · rw [h1.2]; norm_num
  · rw [h2.2]; norm_num

/-- Claim C8: for both variants and every price, pe_ratio returns exactly 0
whenever the dividend yield is 0 (covering price = 0), and otherwise
returns price / dividend_yield price unrounded. -/
theorem pe_ratio_spec (c : CommonStock) (p : PreferredStock) (price : ℝ) :
    CommonStock.pe_ratio c 0 = 0 ∧
    PreferredStock.pe_ratio p 0 = 0 ∧
    (CommonStock.dividend_yield c price = 0 → CommonStock.pe_ratio c price = 0) ∧
    (CommonStock.dividend_yield c price ≠ 0 →
      CommonStock.pe_ratio c price = price / CommonStock.dividend_yield c price) ∧
    (PreferredStock.dividend_yield p price = 0 → PreferredStock.pe_ratio p price = 0) ∧
    (PreferredStock.dividend_yield p price ≠ 0 →
      PreferredStock.pe_ratio p price = price / PreferredStock.dividend_yield p price) := by
  refine ⟨?_, ?_, fun h => ?_, fun h => ?_, fun h => ?_, fun h => ?_⟩
  · simp [CommonStock.pe_ratio, StockABC.pe_ratio, CommonStock.dividend_yield]
  · simp [PreferredStock.pe_ratio, StockABC.pe_ratio, PreferredStock.dividend_yield]
  · simp [CommonStock.pe_ratio, StockABC.pe_ratio, h]
  · simp [CommonStock.pe_ratio, StockABC.pe_ratio, h]
  · simp [PreferredStock.pe_ratio, StockABC.pe_ratio, h]
  · simp [PreferredStock.pe_ratio, StockABC.pe_ratio, h]

/-- Witness for C8: a common stock with last_dividend 8 has
dividend_yield 2 = 4 (nonzero), so pe_ratio 2 = 2 / 4; and pe_ratio 0 = 0
for both variants. -/
theorem pe_ratio_spec_witness :
    CommonStock.pe_ratio ⟨"POP", 8, 100⟩ 0 = 0 ∧
    PreferredStock.pe_ratio ⟨"GIN", 8, 2, 100⟩ 0 = 0 ∧
    CommonStock.pe_ratio ⟨"POP", 8, 100⟩ 2 = 1 / 2 := by
  have h := pe_ratio_spec ⟨"POP", 8, 100⟩ ⟨"GIN", 8, 2, 100⟩ 2
  have hdy : CommonStock.dividend_yield ⟨"POP", 8, 100⟩ 2 = 4 := by
    simp [CommonStock.dividend_yield]; norm_num
  refine ⟨h.1, h.2.1, ?_⟩
  rw [h.2.2.2.1 (by rw [hdy]; norm_num), hdy]
  norm_num

/-! ## Embedding of src/trade.py -/

/-- class TradeIndicator(Enum): Buy or Sell. -/
inductive TradeIndicator
  | buy
  | sell
deriving DecidableEq

/-- class Trade: one execution record.  Timestamps are embedded as
integers (the Python datetime values are only compared, maxed and
subtracted); quantity and traded_price are real numbers. -/
structure Trade where
  stock : Stock
  timestamp : ℤ
  quantity : ℝ
  indicator : TradeIndicator
  traded_price : ℝ

/-- class SimpleTradeList: per-symbol trade sequences plus running
aggregates.  The records dict is embedded as a total function from symbol
to trade list; a missing key and a key mapped to the empty list are
observationally identical in the source (every read goes through
records.get / setdefault followed by an emptiness test). -/
structure SimpleTradeList where
  records : String → List Trade
  traded_price_count : ℕ
  total_traded_price : ℝ
  total_traded_price_log : ℝ
  last_timestamp : Option ℤ

/-- SimpleTradeList.__init__: the empty ledger. -/
def SimpleTradeList.init : SimpleTradeList :=
  { records := fun _ => []
    traded_price_count := 0
    total_traded_price := 0
    total_traded_price_log := 0
    last_timestamp := none }

/-- The ordering precondition checked by record_trade:
len(trade_list) == 0 or trade_list[-1].timestamp <= trade.timestamp. -/
def lastTimestampOk (trade_list : List Trade) (trade : Trade) : Bool :=
  match trade_list.getLast? with
  | none => true
  | some u => u.timestamp ≤ trade.timestamp

/-- The state updates of record_trade performed before the math.log call:
append the trade to its symbol's list, bump the global count, add the
traded price to the global sum. -/
def SimpleTradeList.stepAppend (s : SimpleTradeList) (trade : Trade) : SimpleTradeList :=
  { s with
    records := Function.update s.records trade.stock.symbol
      (s.records trade.stock.symbol ++ [trade])
    traded_price_count := s.traded_price_count + 1
    total_traded_price := s.total_traded_price + trade.traded_price }

/-- The full successful effect of record_trade: the pre-log updates plus
the log-sum contribution and the last-seen-timestamp update. -/
noncomputable def SimpleTradeList.stepOk (s : SimpleTradeList) (trade : Trade) : SimpleTradeList :=
  { s.stepAppend trade with
    total_traded_price_log := s.total_traded_price_log + Real.log trade.traded_price
    last_timestamp :=
      some (match s.last_timestamp with
            | none => trade.timestamp
            | some m => max m trade.timestamp) }

/-- Result of record_trade.  orderError models the AssertionError raised
by the ordering check (carrying the symbol, the offending trade and the
ledger state at raise time); logError models the ValueError raised by
math.log on a non-positive traded price (carrying the partially mutated
state at raise time). -/
inductive RecordResult
  | ok (s : SimpleTradeList)
  | orderError (symbol : String) (trade : Trade) (s : SimpleTradeList)
  | logError (s : SimpleTradeList)

/-- SimpleTradeList.record_trade, line by line: the ordering assert runs
first (on the failure path nothing has been mutated: setdefault only
inserts an empty list when the symbol is absent, and an absent symbol
always passes the check); then the append, count and price-sum updates;
then math.log, which raises on traded_price <= 0, leaving the log-sum and
last_timestamp untouched; then the log-sum and last_timestamp updates. -/
noncomputable def SimpleTradeList.record_trade (s : SimpleTradeList) (trade : Trade) :
    RecordResult :=
  if lastTimestampOk (s.records trade.stock.symbol) trade then
    if trade.traded_price ≤ 0 then .logError (s.stepAppend trade)
    else .ok (s.stepOk trade)
  else .orderError trade.stock.symbol trade s

/-- SimpleTradeList.get_last_timestamp: without a symbol, the global
last_timestamp field; with a symbol, the timestamp of the last trade of
that symbol, or None when there is none. -/
def SimpleTradeList.get_last_timestamp (s : SimpleTradeList) (stock_symbol : Option String) :
    Option ℤ :=
  match stock_symbol with
  | none => s.last_timestamp
  | some sym => ((s.records sym).getLast?).map Trade.timestamp

/-- SimpleTradeList.geometric_mean: 0 on an empty ledger, otherwise
exp(total_traded_price_log / traded_price_count). -/
noncomputable def SimpleTradeList.geometric_mean (s : SimpleTradeList) : ℝ :=
  if s.traded_price_count < 1 then 0
  else Real.exp (s.total_traded_price_log / (s.traded_price_count : ℝ))

/-- The default trade_timedelta of volume_weighted_stock_price:
timedelta(minutes=15), i.e. 900 seconds. -/
def default_trade_timedelta : ℤ := 15 * 60

/-- The backward loop of volume_weighted_stock_price, written as a
recursion over the reversed trade list: starting from the most recent
trade, stop at the first trade with now - trade_timedelta > timestamp,
otherwise accumulate (traded_price * quantity, quantity). -/
noncomputable def vwapScan (now trade_timedelta : ℤ) : List Trade → ℝ × ℝ
  | [] => (0, 0)
  | t :: rest =>
    if now - trade_timedelta > t.timestamp then (0, 0)
    else
      let p := vwapScan now trade_timedelta rest
      (p.1 + t.traded_price * t.quantity, p.2 + t.quantity)

/-- SimpleTradeList.volume_weighted_stock_price: 0 when the symbol has no
trades; otherwise the backward scan's price*quantity total divided by its
quantity total, or 0 when the quantity total is 0. -/
noncomputable def SimpleTradeList.volume_weighted_stock_price (s : SimpleTradeList)
    (stock_symbol : String) (now trade_timedelta : ℤ) : ℝ :=
  let trades := s.records stock_symbol
  if trades.isEmpty then 0
  else
    let p := vwapScan now trade_timedelta trades.reverse
    if p.2 = 0 then 0 else p.1 / p.2

/-- The naive specification of the window: all trades of the full history
whose timestamp satisfies now - trade_timedelta <= timestamp. -/
def windowTrades (now trade_timedelta : ℤ) (trades : List Trade) : List Trade :=
  trades.filter (fun t => now - trade_timedelta ≤ t.timestamp)

/-- Ledger states reachable from the empty ledger by successful
record_trade calls, indexed by the list of trades recorded so far. -/
inductive ReachableBy : SimpleTradeList → List Trade → Prop
  | empty : ReachableBy SimpleTradeList.init []
  | step {s ts trade s'} : ReachableBy s ts →
      SimpleTradeList.record_trade s trade = .ok s' →
      ReachableBy s' (ts ++ [trade])

/-! ## Helper lemmas about record_trade and reachable states -/

/-- Inversion of a successful record_trade call: the ordering check
passed, the traded price was positive (math.log did not raise), and the
new state is the full stepOk update. -/
theorem record_trade_ok_inv {s : SimpleTradeList} {trade : Trade} {s' : SimpleTradeList}
    (h : SimpleTradeList.record_trade s trade = .ok s') :
    lastTimestampOk (s.records trade.stock.symbol) trade = true ∧
    0 < trade.traded_price ∧ s' = s.stepOk trade := by
  unfold SimpleTradeList.record_trade at h
  by_cases h1 : lastTimestampOk (s.records trade.stock.symbol) trade = true
  · rw [if_pos h1] at h
    by_cases h2 : trade.traded_price ≤ 0
    · rw [if_pos h2] at h
      exact RecordResult.noConfusion h
    · rw [if_neg h2] at h
      injection h with h'
      exact ⟨h1, not_le.mp h2, h'.symm⟩
  · rw [if_neg h1] at h
    exact RecordResult.noConfusion h

/-- Introduction rule for a successful record_trade call. -/
theorem record_trade_ok_of {s : SimpleTradeList} {trade : Trade}
    (h1 : lastTimestampOk (s.records trade.stock.symbol) trade = true)
    (h2 : 0 < trade.traded_price) :
    SimpleTradeList.record_trade s trade = .ok (s.stepOk trade) := by
  unfold SimpleTradeList.record_trade
  rw [if_pos h1, if_neg (not_le.mpr h2)]

/-- In a reachable state the per-symbol lists are exactly the recorded
trades filtered by symbol, in recording order. -/
theorem ReachableBy.records_eq {s : SimpleTradeList} {ts : List Trade}
    (h : ReachableBy s ts) (sym : String) :
    s.records sym = ts.filter (fun u => u.stock.symbol = sym) := by
  induction h with
  | empty => rfl
  | step hr hok ih =>
    obtain ⟨hord, hpos, rfl⟩ := record_trade_ok_inv hok
    rename_i s₀ ts₀ trade
    show (s₀.stepOk trade).records sym = _
    simp only [SimpleTradeList.stepOk, SimpleTradeList.stepAppend, List.filter_append]
    by_cases hsym : trade.stock.symbol = sym
    · subst hsym
      rw [Function.update_same, ih]
      simp [List.filter_cons]
    · rw [Function.update_noteq (Ne.symm hsym), ih]
      simp [List.filter_cons, hsym]

/-- In a reachable state traded_price_count is the number of recorded
trades. -/
theorem ReachableBy.count_eq {s : SimpleTradeList} {ts : List Trade}
    (h : ReachableBy s ts) :
    s.traded_price_count = ts.length := by
  induction h with
  | empty => rfl
  | step hr hok ih =>
    obtain ⟨hord, hpos, rfl⟩ := record_trade_ok_inv hok
    simp [SimpleTradeList.stepOk, SimpleTradeList.stepAppend, ih]

/-- In a reachable state total_traded_price_log is the sum of the natural
logarithms of all recorded traded prices. -/
theorem ReachableBy.logsum_eq {s : SimpleTradeList} {ts : List Trade}
    (h : ReachableBy s ts) :
    s.total_traded_price_log = (ts.map fun u => Real.log u.traded_price).sum := by
  induction h with
  | empty => simp [SimpleTradeList.init]
  | step hr hok ih =>
    obtain ⟨hord, hpos, rfl⟩ := record_trade_ok_inv hok
    simp [SimpleTradeList.stepOk, SimpleTradeList.stepAppend, ih]

/-- In a reachable state total_traded_price is the sum of all recorded
traded prices. -/
theorem ReachableBy.pricesum_eq {s : SimpleTradeList} {ts : List Trade}
    (h : ReachableBy s ts) :
    s.total_traded_price = (ts.map Trade.traded_price).sum := by
  induction h with
  | empty => simp [SimpleTradeList.init]
  | step hr hok ih =>
    obtain ⟨hord, hpos, rfl⟩ := record_trade_ok_inv hok
    simp [SimpleTradeList.stepOk, SimpleTradeList.stepAppend, ih]

/-- Every recorded traded price is positive (a non-positive price makes
math.log raise, so the call is not successful). -/
theorem ReachableBy.prices_pos {s : SimpleTradeList} {ts : List Trade}
    (h : ReachableBy s ts) :
    ∀ u ∈ ts, 0 < u.traded_price := by
  induction h with
  | empty => intro u hu; cases hu
  | step hr hok ih =>
    obtain ⟨hord, hpos, rfl⟩ := record_trade_ok_inv hok
    intro u hu
    rcases List.mem_append.mp hu with hu | hu
    · exact ih u hu
    · rcases List.mem_singleton.mp hu with rfl
      exact hpos

/-- In a reachable state every per-symbol list is sorted by
non-decreasing timestamp. -/
theorem ReachableBy.chain {s : SimpleTradeList} {ts : List Trade}
    (h : ReachableBy s ts) (sym : String) :
    (s.records sym).Chain' (fun a b => a.timestamp ≤ b.timestamp) := by
  induction h with
  | empty => exact List.chain'_nil
  | step hr hok ih =>
    obtain ⟨hord, hpos, rfl⟩ := record_trade_ok_inv hok
    rename_i s₀ ts₀ trade
    show ((s₀.stepOk trade).records sym).Chain' _
    simp only [SimpleTradeList.stepOk, SimpleTradeList.stepAppend]
    by_cases hsym : trade.stock.symbol = sym
    · subst hsym
      rw [Function.update_same, List.chain'_append]
      refine ⟨ih, List.chain'_singleton trade, ?_⟩
      intro x hx y hy
      simp only [List.head?_cons, Option.mem_def, Option.some.injEq] at hy
      subst hy
      have hlast : (s₀.records trade.stock.symbol).getLast? = some x := hx
      unfold lastTimestampOk at hord
      rw [hlast] at hord
      simpa using hord
    · rw [Function.update_noteq (Ne.symm hsym)]
      exact ih

/-- In a reachable state last_timestamp is the maximum recorded timestamp,
and is the None sentinel exactly when no trade was ever recorded. -/
theorem ReachableBy.last_timestamp_spec {s : SimpleTradeList} {ts : List Trade}
    (h : ReachableBy s ts) :
    (s.last_timestamp = none ↔ ts = []) ∧
    (∀ m, s.last_timestamp = some m →
      m ∈ ts.map Trade.timestamp ∧ ∀ x ∈ ts.map Trade.timestamp, x ≤ m) := by
  induction h with
  | empty =>
    refine ⟨by simp [SimpleTradeList.init], fun m hm => ?_⟩
    exact Option.noConfusion hm
  | step hr hok ih =>
    obtain ⟨hord, hpos, rfl⟩ := record_trade_ok_inv hok
    rename_i s₀ ts₀ trade
    constructor
    · simp [SimpleTradeList.stepOk, SimpleTradeList.stepAppend]
    · intro m hm
      simp only [SimpleTradeList.stepOk, SimpleTradeList.stepAppend] at hm
      injection hm with hm'
      cases hlast : s₀.last_timestamp with
      | none =>
        rw [hlast] at hm'
        have hm2 : trade.timestamp = m := hm'
        have hts : ts₀ = [] := ih.1.mp hlast
        subst hts
        subst hm2
        simp
      | some m0 =>
        rw [hlast] at hm'
        obtain ⟨hmem, hbound⟩ := ih.2 m0 hlast
        have hm2 : max m0 trade.timestamp = m := hm'
        subst hm2
        constructor
        · rcases le_total m0 trade.timestamp with hle | hle
          · rw [max_eq_right hle]
            simp
          · rw [max_eq_left hle]
            simp only [List.map_append, List.mem_append]
            exact Or.inl hmem
        · intro x hx
          simp only [List.map_append, List.mem_append] at hx
          rcases hx with hx | hx
          · exact le_trans (hbound x hx) (le_max_left _ _)
          · simp only [List.map_cons, List.map_nil, List.mem_singleton] at hx
            subst hx
            exact le_max_right _ _

/-! ## The backward window scan versus the naive filter -/

instance : IsTrans Trade (fun a b => a.timestamp ≤ b.timestamp) :=
  ⟨fun _ _ _ h1 h2 => le_trans h1 h2⟩

/-- On a list sorted by non-increasing timestamp (the reversed per-symbol
history), the early-terminating scan accumulates exactly the sums over
the trades inside the window. -/
theorem vwapScan_eq_of_pairwise {now delta : ℤ} {r : List Trade}
    (h : r.Pairwise fun a b => b.timestamp ≤ a.timestamp) :
    vwapScan now delta r =
      (((r.filter fun t => now - delta ≤ t.timestamp).map fun t =>
          t.traded_price * t.quantity).sum,
       ((r.filter fun t => now - delta ≤ t.timestamp).map Trade.quantity).sum) := by
  induction r with
  | nil => simp [vwapScan]
  | cons t rest ih =>
    rcases List.pairwise_cons.mp h with ⟨hall, hrest⟩
    by_cases hwin : now - delta > t.timestamp
    · simp only [vwapScan, if_pos hwin]
      have hempty : (rest.filter fun u => now - delta ≤ u.timestamp) = [] := by
        rw [List.filter_eq_nil_iff]
        intro a ha
        simp only [decide_eq_true_eq]
        exact not_le.mpr (lt_of_le_of_lt (hall a ha) hwin)
      have hpt : ¬(decide (now - delta ≤ t.timestamp) = true) := by
        simpa using not_le.mpr hwin
      rw [List.filter_cons, if_neg hpt, hempty]
      simp
    · simp only [vwapScan, if_neg hwin, ih hrest]
      have hpt : decide (now - delta ≤ t.timestamp) = true := by
        simpa using not_lt.mp hwin
      rw [List.filter_cons, if_pos hpt, List.map_cons, List.map_cons,
        List.sum_cons, List.sum_cons, Prod.mk.injEq]
      exact ⟨add_comm _ _, add_comm _ _⟩

/-- For a per-symbol history sorted by non-decreasing timestamp, the
backward scan over the reversed history equals the full-history filter
sums. -/
theorem vwapScan_reverse_eq {trades : List Trade} {now delta : ℤ}
    (h : trades.Chain' fun a b => a.timestamp ≤ b.timestamp) :
    vwapScan now delta trades.reverse =
      (((windowTrades now delta trades).map fun t =>
          t.traded_price * t.quantity).sum,
       ((windowTrades now delta trades).map Trade.quantity).sum) := by
  have hp : trades.Pairwise (fun a b => a.timestamp ≤ b.timestamp) :=
    List.chain'_iff_pairwise.mp h
  have hpr : trades.reverse.Pairwise (fun a b => b.timestamp ≤ a.timestamp) :=
    List.pairwise_reverse.mpr hp
  rw [vwapScan_eq_of_pairwise hpr, windowTrades]
  rw [List.filter_reverse, List.map_reverse, List.map_reverse,
    List.sum_reverse, List.sum_reverse]

/-! ## Claim theorems on the ledger analytics -/

/-- Sum of logarithms is the logarithm of the product, for positive
factors. -/
theorem list_sum_log_eq {l : List ℝ} (hl : ∀ x ∈ l, 0 < x) :
    (l.map Real.log).sum = Real.log l.prod := by
  induction l with
  | nil => simp
  | cons x xs ih =>
    have hx := hl x (List.mem_cons_self x xs)
    have hxs : ∀ y ∈ xs, 0 < y := fun y hy => hl y (List.mem_cons_of_mem x hy)
    have hprod : xs.prod ≠ 0 := ne_of_gt (List.prod_pos hxs)
    simp only [List.map_cons, List.sum_cons, List.prod_cons]
    rw [ih hxs, Real.log_mul (ne_of_gt hx) hprod]

/-- Claim C1: geometric_mean returns 0 when zero trades have ever been
recorded, and otherwise returns exp(total_traded_price_log /
traded_price_count), which equals the n-th root of the product of the
traded prices of all recorded trades across every symbol. -/
theorem geometric_mean_spec {s : SimpleTradeList} {ts : List Trade}
    (h : ReachableBy s ts) :
    (s.traded_price_count = 0 → s.geometric_mean = 0) ∧
    (s.traded_price_count ≠ 0 →
      s.geometric_mean =
        Real.exp (s.total_traded_price_log / (s.traded_price_count : ℝ)) ∧
      s.geometric_mean =
        (ts.map Trade.traded_price).prod ^ (((ts.length : ℝ))⁻¹)) := by
  have hc := ReachableBy.count_eq h
  have hl := ReachableBy.logsum_eq h
  have hp := ReachableBy.prices_pos h
  constructor
  · intro h0
    simp [SimpleTradeList.geometric_mean, h0]
  · intro h0
    have hlt : ¬(s.traded_price_count < 1) := by omega
    refine ⟨by simp [SimpleTradeList.geometric_mean, hlt], ?_⟩
    simp only [SimpleTradeList.geometric_mean, if_neg hlt]
    have hpos : ∀ x ∈ ts.map Trade.traded_price, 0 < x := by
      intro x hx
      rcases List.mem_map.mp hx with ⟨u, hu, rfl⟩
      exact hp u hu
    have hprodpos : 0 < (ts.map Trade.traded_price).prod := List.prod_pos hpos
    have hmm : (ts.map fun u => Real.log u.traded_price) =
        (ts.map Trade.traded_price).map Real.log := by
      rw [List.map_map]
      rfl
    rw [hl, hmm, list_sum_log_eq hpos, Real.rpow_def_of_pos hprodpos]
    congr 1
    rw [hc, div_eq_mul_inv]

/-- Claim C6: under the per-symbol ordering invariant, the backward scan
of volume_weighted_stock_price (iterating from the most recent entry and
stopping at the first trade older than now - window) accumulates the same
price*quantity and quantity sums as filtering the entire history for
trades with timestamp at least now - window. -/
theorem backward_scan_refines_filter {trades : List Trade} {now delta : ℤ}
    (h : trades.Chain' fun a b => a.timestamp ≤ b.timestamp) :
    vwapScan now delta trades.reverse =
      (((windowTrades now delta trades).map fun t =>
          t.traded_price * t.quantity).sum,
       ((windowTrades now delta trades).map Trade.quantity).sum) :=
  vwapScan_reverse_eq h

/-- Claim C2: in every reachable ledger state,
volume_weighted_stock_price returns 0 when the symbol has no recorded
trades; otherwise it returns the sum of traded_price * quantity divided
by the sum of quantity over exactly the symbol's trades with timestamp
at least now - window (0 when that quantity sum is 0); the default
window is 15 minutes. -/
theorem volume_weighted_stock_price_spec {s : SimpleTradeList} {ts : List Trade}
    (h : ReachableBy s ts) (sym : String) (now trade_timedelta : ℤ) :
    (s.records sym = [] →
      s.volume_weighted_stock_price sym now trade_timedelta = 0) ∧
    (((windowTrades now trade_timedelta (s.records sym)).map Trade.quantity).sum = 0 →
      s.volume_weighted_stock_price sym now trade_timedelta = 0) ∧
    (((windowTrades now trade_timedelta (s.records sym)).map Trade.quantity).sum ≠ 0 →
      s.volume_weighted_stock_price sym now trade_timedelta =
        ((windowTrades now trade_timedelta (s.records sym)).map fun t =>
          t.traded_price * t.quantity).sum /
        ((windowTrades now trade_timedelta (s.records sym)).map Trade.quantity).sum) ∧
    default_trade_timedelta = 15 * 60 := by
  have hch := ReachableBy.chain h sym
  have hs := @vwapScan_reverse_eq (s.records sym) now trade_timedelta hch
  refine ⟨fun hemp => ?_, fun hq => ?_, fun hq => ?_, rfl⟩
  · simp [SimpleTradeList.volume_weighted_stock_price, hemp]
  · by_cases hne : s.records sym = []
    · simp [SimpleTradeList.volume_weighted_stock_price, hne]
    · have hie : (s.records sym).isEmpty = false := by
        simpa [List.isEmpty_iff] using hne
      simp only [SimpleTradeList.volume_weighted_stock_price, hie, Bool.false_eq_true,
        if_false, hs, hq]
      simp
  · have hne : s.records sym ≠ [] := by
      intro hemp
      apply hq
      simp [hemp, windowTrades]
    have hie : (s.records sym).isEmpty = false := by
      simpa [List.isEmpty_iff] using hne
    simp only [SimpleTradeList.volume_weighted_stock_price, hie, Bool.false_eq_true,
      if_false, hs]
    rw [if_neg hq]

/-- Claim C3: a record_trade call whose trade timestamp precedes the last
recorded timestamp of the same symbol fails with the ordering error
naming the symbol and the offending trade, and the ledger state at the
failure is exactly the state before the call: the check runs before any
mutation. -/
theorem record_trade_order_error_spec {s : SimpleTradeList} {trade u : Trade}
    (hu : (s.records trade.stock.symbol).getLast? = some u)
    (hlt : trade.timestamp < u.timestamp) :
    SimpleTradeList.record_trade s trade = .orderError trade.stock.symbol trade s := by
  have hnot : ¬(lastTimestampOk (s.records trade.stock.symbol) trade = true) := by
    unfold lastTimestampOk
    rw [hu]
    show ¬(decide (u.timestamp ≤ trade.timestamp) = true)
    simp only [decide_eq_true_eq]
    exact not_le.mpr hlt
  unfold SimpleTradeList.record_trade
  rw [if_neg hnot]

/-- Claim C4: a successful record_trade appends the trade exactly once at
the end of its symbol's sequence, leaves the other symbols' sequences
untouched, increments the global count by 1, adds the traded price to
the global price sum, adds its natural logarithm to the global log-sum,
and sets the last-seen timestamp to the max of its previous value and
the trade's timestamp (to the trade's timestamp when it was None). -/
theorem record_trade_ok_spec {s : SimpleTradeList} {trade : Trade} {s' : SimpleTradeList}
    (h : SimpleTradeList.record_trade s trade = .ok s') :
    s'.records trade.stock.symbol = s.records trade.stock.symbol ++ [trade] ∧
    (∀ sym, sym ≠ trade.stock.symbol → s'.records sym = s.records sym) ∧
    s'.traded_price_count = s.traded_price_count + 1 ∧
    s'.total_traded_price = s.total_traded_price + trade.traded_price ∧
    s'.total_traded_price_log = s.total_traded_price_log + Real.log trade.traded_price ∧
    (s.last_timestamp = none → s'.last_timestamp = some trade.timestamp) ∧
    (∀ m, s.last_timestamp = some m →
      s'.last_timestamp = some (max m trade.timestamp)) := by
  obtain ⟨hord, hpos, rfl⟩ := record_trade_ok_inv h
  refine ⟨?_, fun sym hsym => ?_, rfl, rfl, rfl, fun hn => ?_, fun m hm => ?_⟩
  · show Function.update _ _ _ _ = _
    rw [Function.update_same]
  · show Function.update _ _ _ _ = _
    rw [Function.update_noteq hsym]
  · simp only [SimpleTradeList.stepOk]
    rw [hn]
  · simp only [SimpleTradeList.stepOk]
    rw [hm]

/-- Claim C5: every state reachable from the empty ledger by successful
record_trade calls has every per-symbol sequence ordered by
non-decreasing timestamp, and record_trade preserves this invariant. -/
theorem per_symbol_sorted_invariant :
    (∀ (s : SimpleTradeList) (ts : List Trade), ReachableBy s ts →
      ∀ sym, (s.records sym).Chain' fun a b => a.timestamp ≤ b.timestamp) ∧
    (∀ (s : SimpleTradeList) (trade : Trade) (s' : SimpleTradeList),
      (∀ sym, (s.records sym).Chain' fun a b => a.timestamp ≤ b.timestamp) →
      SimpleTradeList.record_trade s trade = .ok s' →
      ∀ sym, (s'.records sym).Chain' fun a b => a.timestamp ≤ b.timestamp) := by
  constructor
  · exact fun s ts h sym => ReachableBy.chain h sym
  · intro s trade s' hinv hok sym
    obtain ⟨hord, hpos, rfl⟩ := record_trade_ok_inv hok
    show ((s.stepOk trade).records sym).Chain' _
    simp only [SimpleTradeList.stepOk, SimpleTradeList.stepAppend]
    by_cases hsym : trade.stock.symbol = sym
    · subst hsym
      rw [Function.update_same, List.chain'_append]
      refine ⟨hinv trade.stock.symbol, List.chain'_singleton trade, ?_⟩
      intro x hx y hy
      simp only [List.head?_cons, Option.mem_def, Option.some.injEq] at hy
      subst hy
      have hlast : (s.records trade.stock.symbol).getLast? = some x := hx
      unfold lastTimestampOk at hord
      rw [hlast] at hord
      simpa using hord
    · rw [Function.update_noteq (Ne.symm hsym)]
      exact hinv sym

/-- Claim C9: get_last_timestamp without a symbol returns the global
last-seen timestamp (the maximum recorded timestamp) or None when no
trade was ever recorded; with a symbol it returns the timestamp of that
symbol's most recently appended trade, or None when the symbol has no
trades; both forms are total, so an unknown symbol yields None rather
than an error. -/
theorem get_last_timestamp_spec {s : SimpleTradeList} {ts : List Trade}
    (h : ReachableBy s ts) :
    (ts = [] → s.get_last_timestamp none = none) ∧
    (ts ≠ [] → ∃ m, s.get_last_timestamp none = some m ∧
      m ∈ ts.map Trade.timestamp ∧ ∀ x ∈ ts.map Trade.timestamp, x ≤ m) ∧
    (∀ sym, s.get_last_timestamp (some sym) =
      ((ts.filter fun u => u.stock.symbol = sym).getLast?).map Trade.timestamp) := by
  have hl := ReachableBy.last_timestamp_spec h
  refine ⟨fun he => ?_, fun hne => ?_, fun sym => ?_⟩
  · show s.last_timestamp = none
    exact hl.1.mpr he
  · cases hcase : s.last_timestamp with
    | none => exact absurd (hl.1.mp hcase) hne
    | some m =>
      exact ⟨m, hcase, (hl.2 m hcase).1, (hl.2 m hcase).2⟩
  · show ((s.records sym).getLast?).map Trade.timestamp = _
    rw [ReachableBy.records_eq h sym]

/-- Claim C10: when the ordering check passes but the traded price is
non-positive, record_trade fails in the logarithm computation after the
trade has been appended and the global count and price sum updated; the
log-sum and last-seen timestamp are left untouched, so the aggregates of
the resulting state no longer agree with its recorded trades. -/
theorem record_trade_log_error_spec {s : SimpleTradeList} {trade : Trade}
    (hord : lastTimestampOk (s.records trade.stock.symbol) trade = true)
    (hple : trade.traded_price ≤ 0) :
    SimpleTradeList.record_trade s trade = .logError (s.stepAppend trade) ∧
    (s.stepAppend trade).records trade.stock.symbol =
      s.records trade.stock.symbol ++ [trade] ∧
    (∀ sym, sym ≠ trade.stock.symbol →
      (s.stepAppend trade).records sym = s.records sym) ∧
    (s.stepAppend trade).traded_price_count = s.traded_price_count + 1 ∧
    (s.stepAppend trade).total_traded_price =
      s.total_traded_price + trade.traded_price ∧
    (s.stepAppend trade).total_traded_price_log = s.total_traded_price_log ∧
    (s.stepAppend trade).last_timestamp = s.last_timestamp := by
  refine ⟨?_, ?_, fun sym hsym => ?_, rfl, rfl, rfl, rfl⟩
  · unfold SimpleTradeList.record_trade
    rw [if_pos hord, if_pos hple]
  · show Function.update _ _ _ _ = _
    rw [Function.update_same]
  · show Function.update _ _ _ _ = _
    rw [Function.update_noteq hsym]

/-! ## Concrete states used by the witnesses -/

/-- A common stock with symbol TEA. -/
def tea : Stock := Stock.common ⟨"TEA", 0, 100⟩

/-- A preferred stock with symbol GIN. -/
def gin : Stock := Stock.preferred ⟨"GIN", 8, 2, 100⟩

/-- TEA trade at time 0 (20 minutes before time 1200), price 40. -/
def tA : Trade := ⟨tea, 0, 1, TradeIndicator.buy, 40⟩

/-- TEA trade at time 600 (10 minutes before time 1200), price 20. -/
def tB : Trade := ⟨tea, 600, 1, TradeIndicator.buy, 20⟩

/-- TEA trade at time 900 (5 minutes before time 1200), price 30. -/
def tC : Trade := ⟨tea, 900, 1, TradeIndicator.buy, 30⟩

/-- TEA trade at price 2 for the geometric-mean example. -/
def g1 : Trade := ⟨tea, 0, 1, TradeIndicator.buy, 2⟩

/-- GIN trade at price 8 for the geometric-mean example. -/
def g2 : Trade := ⟨gin, 60, 1, TradeIndicator.buy, 8⟩

/-- A TEA trade whose timestamp 100 precedes the last recorded TEA
timestamp 900 of vwapState. -/
def tBad : Trade := ⟨tea, 100, 1, TradeIndicator.buy, 7⟩

/-- A TEA trade with a negative traded price. -/
def tNeg : Trade := ⟨tea, 0, 1, TradeIndicator.buy, -1⟩

/-- The ledger holding tA, tB, tC. -/
noncomputable def vwapState : SimpleTradeList :=
  ((SimpleTradeList.init.stepOk tA).stepOk tB).stepOk tC

/-- The ledger holding g1, g2. -/
noncomputable def gmState : SimpleTradeList :=
  (SimpleTradeList.init.stepOk g1).stepOk g2

theorem tA_ok : SimpleTradeList.record_trade SimpleTradeList.init tA =
    .ok (SimpleTradeList.init.stepOk tA) :=
  record_trade_ok_of rfl (by norm_num [tA])

theorem records_after_tA :
    (SimpleTradeList.init.stepOk tA).records tB.stock.symbol = [tA] := by
  simp [SimpleTradeList.stepOk, SimpleTradeList.stepAppend, SimpleTradeList.init,
    tA, tB, tea, Stock.symbol, Function.update]

theorem tB_ok : SimpleTradeList.record_trade (SimpleTradeList.init.stepOk tA) tB =
    .ok ((SimpleTradeList.init.stepOk tA).stepOk tB) := by
  refine record_trade_ok_of ?_ (by norm_num [tB])
  rw [records_after_tA]
  simp [lastTimestampOk, tA, tB]

theorem records_after_tB :
    ((SimpleTradeList.init.stepOk tA).stepOk tB).records tC.stock.symbol = [tA, tB] := by
  simp [SimpleTradeList.stepOk, SimpleTradeList.stepAppend, SimpleTradeList.init,
    tA, tB, tC, tea, Stock.symbol, Function.update]

theorem tC_ok : SimpleTradeList.record_trade
    ((SimpleTradeList.init.stepOk tA).stepOk tB) tC =
    .ok (((SimpleTradeList.init.stepOk tA).stepOk tB).stepOk tC) := by
  refine record_trade_ok_of ?_ (by norm_num [tC])
  rw [records_after_tB]
  simp [lastTimestampOk, tB, tC]

theorem vwapState_reachable : ReachableBy vwapState [tA, tB, tC] :=
  ReachableBy.step (ReachableBy.step (ReachableBy.step ReachableBy.empty tA_ok) tB_ok) tC_ok

theorem g1_ok : SimpleTradeList.record_trade SimpleTradeList.init g1 =
    .ok (SimpleTradeList.init.stepOk g1) :=
  record_trade_ok_of rfl (by norm_num [g1])

theorem records_after_g1 :
    (SimpleTradeList.init.stepOk g1).records g2.stock.symbol = [] := by
  simp only [SimpleTradeList.stepOk, SimpleTradeList.stepAppend, SimpleTradeList.init]
  rw [Function.update_noteq]
  show gin.symbol ≠ tea.symbol
  simp [tea, gin, Stock.symbol]

theorem g2_ok : SimpleTradeList.record_trade (SimpleTradeList.init.stepOk g1) g2 =
    .ok ((SimpleTradeList.init.stepOk g1).stepOk g2) := by
  refine record_trade_ok_of ?_ (by norm_num [g2])
  rw [records_after_g1]
  rfl

theorem gmState_reachable : ReachableBy gmState [g1, g2] :=
  ReachableBy.step (ReachableBy.step ReachableBy.empty g1_ok) g2_ok

/-! ## Witnesses -/

/-- Witness for C1: recording prices 2 (symbol TEA) and 8 (symbol GIN)
gives geometric mean 4. -/
theorem geometric_mean_spec_witness :
    ReachableBy gmState [g1, g2] ∧ gmState.geometric_mean = 4 := by
  have hcount : gmState.traded_price_count ≠ 0 := by
    rw [ReachableBy.count_eq gmState_reachable]
    simp
  have h := (geometric_mean_spec gmState_reachable).2 hcount
  refine ⟨gmState_reachable, ?_⟩
  rw [h.2]
  have hmap : ([g1, g2].map Trade.traded_price) = [2, 8] := by
    simp [g1, g2]
  rw [hmap]
  norm_num
  have h16 : (16:ℝ) = 4 ^ (2:ℝ) := by
    rw [show (2:ℝ) = ((2:ℕ):ℝ) by norm_num, Real.rpow_natCast]
    norm_num
  rw [h16, ← Real.rpow_mul (by norm_num : (0:ℝ) ≤ 4)]
  rw [show (2:ℝ) * (1 / 2) = 1 by norm_num, Real.rpow_one]

/-- Witness for C2: with trades at 20, 10 and 5 minutes before time 1200
(prices 40, 20, 30, quantity 1 each) and the default 15-minute window,
the 20-minutes-ago trade is excluded and the result is (20+30)/2 = 25. -/
theorem volume_weighted_stock_price_spec_witness :
    ReachableBy vwapState [tA, tB, tC] ∧
    vwapState.volume_weighted_stock_price "TEA" 1200 default_trade_timedelta = 25 := by
  have hrec : vwapState.records "TEA" = [tA, tB, tC] := by
    rw [ReachableBy.records_eq vwapState_reachable "TEA"]
    simp [tA, tB, tC, tea, Stock.symbol]
  have hmain := volume_weighted_stock_price_spec vwapState_reachable "TEA" 1200
    default_trade_timedelta
  rw [hrec] at hmain
  have hwin : windowTrades 1200 default_trade_timedelta [tA, tB, tC] = [tB, tC] := by
    norm_num [windowTrades, default_trade_timedelta, tA, tB, tC, List.filter_cons]
  rw [hwin] at hmain
  have hq : (([tB, tC]).map Trade.quantity).sum ≠ (0:ℝ) := by
    norm_num [tB, tC]
  refine ⟨vwapState_reachable, ?_⟩
  rw [hmain.2.2.1 hq]
  norm_num [tB, tC]

/-- Witness for C3: appending a TEA trade with timestamp 100 to a ledger
whose last TEA timestamp is 900 yields the ordering error with the
ledger unchanged. -/
theorem record_trade_order_error_spec_witness :
    SimpleTradeList.record_trade vwapState tBad =
      .orderError tBad.stock.symbol tBad vwapState := by
  have hrec : vwapState.records tBad.stock.symbol = [tA, tB, tC] := by
    rw [ReachableBy.records_eq vwapState_reachable tBad.stock.symbol]
    simp [tA, tB, tC, tBad, tea, Stock.symbol]
  have hu : (vwapState.records tBad.stock.symbol).getLast? = some tC := by
    rw [hrec]
    rfl
  exact record_trade_order_error_spec hu (by norm_num [tBad, tC])

/-- Witness for C4: recording g1 into the empty ledger appends it to the
TEA sequence, increments the count and sets the last timestamp. -/
theorem record_trade_ok_spec_witness :
    (SimpleTradeList.init.stepOk g1).traded_price_count =
      SimpleTradeList.init.traded_price_count + 1 ∧
    (SimpleTradeList.init.stepOk g1).records g1.stock.symbol =
      SimpleTradeList.init.records g1.stock.symbol ++ [g1] ∧
    (SimpleTradeList.init.stepOk g1).last_timestamp = some g1.timestamp := by
  have h := record_trade_ok_spec g1_ok
  exact ⟨h.2.2.1, h.1, h.2.2.2.2.2.1 rfl⟩

/-- Witness for C5: the TEA sequence of the concrete three-trade ledger
is sorted by timestamp. -/
theorem per_symbol_sorted_invariant_witness :
    (vwapState.records "TEA").Chain' (fun a b => a.timestamp ≤ b.timestamp) :=
  per_symbol_sorted_invariant.1 vwapState [tA, tB, tC] vwapState_reachable "TEA"

/-- Witness for C6: on the sorted three-trade history the backward scan
equals the filter sums. -/
theorem backward_scan_refines_filter_witness :
    List.Chain' (fun a b => a.timestamp ≤ b.timestamp) [tA, tB, tC] ∧
    vwapScan 1200 default_trade_timedelta ([tA, tB, tC].reverse) =
      (((windowTrades 1200 default_trade_timedelta [tA, tB, tC]).map fun t =>
          t.traded_price * t.quantity).sum,
       ((windowTrades 1200 default_trade_timedelta [tA, tB, tC]).map
          Trade.quantity).sum) := by
  have hch : List.Chain' (fun a b => a.timestamp ≤ b.timestamp) [tA, tB, tC] := by
    norm_num [List.chain'_cons, List.chain'_singleton, tA, tB, tC]
  exact ⟨hch, backward_scan_refines_filter hch⟩

/-- Witness for C9: on the concrete three-trade TEA ledger, an unknown
symbol yields None, the TEA symbol yields timestamp 900, and the global
query also yields 900. -/
theorem get_last_timestamp_spec_witness :
    vwapState.get_last_timestamp (some "GIN") = none ∧
    vwapState.get_last_timestamp (some "TEA") = some 900 ∧
    vwapState.get_last_timestamp none = some 900 := by
  have h := get_last_timestamp_spec vwapState_reachable
  refine ⟨?_, ?_, ?_⟩
  · rw [h.2.2 "GIN"]
    simp [tA, tB, tC, tea, Stock.symbol]
  · rw [h.2.2 "TEA"]
    simp [tA, tB, tC, tea, Stock.symbol]
  · obtain ⟨m, hm, hmem, hbound⟩ := h.2.1 (by simp)
    have h900 : (900:ℤ) ≤ m := hbound 900 (by simp [tA, tB, tC])
    have hm900 : m = 900 := by
      simp [tA, tB, tC] at hmem
      rcases hmem with rfl | rfl | rfl <;> omega
    rw [hm, hm900]

/-- Witness for C10: recording a TEA trade with price -1 into the empty
ledger raises in the logarithm, with the trade appended and the count
bumped but the log-sum unchanged. -/
theorem record_trade_log_error_spec_witness :
    SimpleTradeList.record_trade SimpleTradeList.init tNeg =
      .logError (SimpleTradeList.init.stepAppend tNeg) ∧
    (SimpleTradeList.init.stepAppend tNeg).traded_price_count =
      SimpleTradeList.init.traded_price_count + 1 ∧
    (SimpleTradeList.init.stepAppend tNeg).total_traded_price_log =
      SimpleTradeList.init.total_traded_price_log := by
  have hord : lastTimestampOk (SimpleTradeList.init.records tNeg.stock.symbol) tNeg =
      true := rfl
  have h := record_trade_log_error_spec hord (by norm_num [tNeg])
  exact ⟨h.1, h.2.2.2.1, h.2.2.2.2.2.1⟩
